import Mathlib

/-!
Verification of the MachineFinder-Scrapy reconciliation engine.

This file gives a shallow embedding of the parts of the repository that the
spec's claims are about:

* `src/db_helper.py` — the SQLite Identity Store (table `items (slug PRIMARY
  KEY, search_name)` plus the `config` table's `first_run_complete` flag).
  The `items` table is modelled as a list of `(slug, search_name)` rows, the
  config flag as an `Option String` (the stored value of the key, `none` when
  the row is absent).  Python `set`s of slugs are modelled as `Finset String`.
* `src/periodic_fetch.py` — `run_cycle`, the per-cycle reconciliation over all
  configured categories.  The Source Fetcher is an input: each configured
  category comes with its fetch outcome, `Except.error ()` when
  `fetch_via_api_parallel` raised (caught and logged by the code, which then
  `continue`s) and `Except.ok machines` otherwise.  Telegram delivery is
  modelled by the data handed to the notifier: the grouped new-item lists.
* `src/api_mode_fetch_parallel.py` — `_parse_price` and the client-side
  `max_price` filter.
-/

namespace MachineFinder

/-! ## db_helper.py -/

/-- A row of the `items` table: `(slug, search_name)`.  `slug` is the primary
key; the key invariant is proved from the operations, not assumed. -/
abbrev Table := List (String × String)

/-- `db_helper.upsert_item`: `INSERT INTO items (slug, search_name) VALUES (?, ?)
ON CONFLICT(slug) DO UPDATE SET search_name=excluded.search_name`.  If a row
with the slug exists its `search_name` is overwritten, otherwise a fresh row is
appended. -/
def upsert_item (t : Table) (slug sname : String) : Table :=
  if t.any (fun r => r.1 == slug) then
    t.map (fun r => if r.1 = slug then (slug, sname) else r)
  else
    t ++ [(slug, sname)]

/-- `db_helper.get_all_slugs`: `SELECT slug FROM items`, collected into a set. -/
def get_all_slugs (t : Table) : Finset String :=
  (t.map Prod.fst).toFinset

/-- `db_helper.get_slugs_by_search`: slugs of rows whose `search_name` matches. -/
def get_slugs_by_search (t : Table) (sname : String) : Finset String :=
  ((t.filter (fun r => decide (r.2 = sname))).map Prod.fst).toFinset

/-- `db_helper.get_total_count`: `SELECT COUNT(*) FROM items`. -/
def get_total_count (t : Table) : Nat := t.length

/-- `db_helper.is_first_run`: the stored value of the `first_run_complete`
config key is absent or differs from `"true"`. -/
def is_first_run (first_run_value : Option String) : Bool :=
  !(first_run_value == some "true")

/-- `db_helper.mark_first_run_complete`: store `'true'` under the key. -/
def mark_first_run_complete (_first_run_value : Option String) : Option String :=
  some "true"

/-- `db_helper.delete_missing`: `if not slugs: return` — with an empty set the
function returns at once; otherwise `DELETE FROM items WHERE slug NOT IN (...)`. -/
def delete_missing (t : Table) (slugs : Finset String) : Table :=
  if slugs = ∅ then t
  else t.filter (fun r => decide (r.1 ∈ slugs))

/-- `db_helper.delete_missing_by_search`: read the slugs currently stored for
the search, diff against `current`, delete the stale ones (`DELETE FROM items
WHERE slug IN (...)` — by slug, with no `search_name` condition), and return
how many slugs were deleted (`len(to_delete)`). -/
def delete_missing_by_search (t : Table) (sname : String) (current : Finset String) :
    Table × Nat :=
  let existing := get_slugs_by_search t sname
  let to_delete := existing \ current
  if to_delete = ∅ then (t, 0)
  else (t.filter (fun r => decide (r.1 ∉ to_delete)), to_delete.card)

/-! ## periodic_fetch.py -/

/-- Python `str.split(sep)` for a one-character separator, on the character
list: `"a//b".split("/") = ["a","","b"]`, `"".split("/") = [""]`. -/
def split_char (sep : Char) : List Char → List (List Char)
  | [] => [[]]
  | c :: cs =>
    let rest := split_char sep cs
    if c = sep then [] :: rest
    else
      match rest with
      | [] => [[c]]
      | h :: t => (c :: h) :: t

/-- Python `str.rstrip("/")`: drop trailing `'/'` characters. -/
def rstrip_slash (cs : List Char) : List Char :=
  (cs.reverse.dropWhile (fun c => c = '/')).reverse

/-- `periodic_fetch._extract_slug`: `url.rstrip("/").split("/")[-1]`. -/
def extract_slug (url : String) : String :=
  String.mk ((split_char '/' (rstrip_slash url.data)).getLastD [])

/-- A machine as returned by the fetcher, with the fields `run_cycle` reads
(`m.get("link")`, `m.get("title")`, ...). -/
structure FetchedMachine where
  link : String
  title : String
  price : String
  location : String
  hours : String
  image_url : String
deriving DecidableEq, Repr

/-- The transient record `run_cycle` builds for each machine and appends to
`new_items` when the machine is new. -/
structure Record where
  slug : String
  title : String
  price : String
  location : String
  hours : String
  link : String
  search_name : String
  image_url : String
deriving DecidableEq, Repr

/-- The `record = {...}` dictionary built in the fetch loop. -/
def make_record (title slug : String) (m : FetchedMachine) : Record :=
  ⟨slug, m.title, m.price, m.location, m.hours, m.link, title, m.image_url⟩

/-- Durable state: the `items` table plus the `first_run_complete` config value. -/
structure CycleState where
  items : Table
  first_run_value : Option String
deriving DecidableEq, Repr

/-- The mutable locals of `run_cycle` while iterating the configured searches:
the database connection (`items`), `stored_slugs`, `fetched_slugs`,
`new_items`, `new_items_slugs`, and the per-search `current_slugs_for_search`
and `new_items_count`. -/
structure Ctx where
  items : Table
  stored_slugs : Finset String
  fetched_slugs : Finset String
  new_items : List Record
  new_items_slugs : Finset String
  current : Finset String
  new_count : Nat

/-- The body of `for m in machines:` in `run_cycle`: skip machines with an
empty link or an empty extracted slug, add the slug to
`current_slugs_for_search` and `fetched_slugs`, upsert `(slug, title)`, and
append to `new_items` when the slug is in neither `stored_slugs` nor
`new_items_slugs` (also adding it to both so later searches skip it). -/
def process_one (title : String) (m : FetchedMachine) (ctx : Ctx) : Ctx :=
  if m.link = "" then ctx
  else
    let slug := extract_slug m.link
    if slug = "" then ctx
    else
      let ctx1 : Ctx :=
        { ctx with current := insert slug ctx.current,
                   fetched_slugs := insert slug ctx.fetched_slugs }
      let ctx2 : Ctx := { ctx1 with items := upsert_item ctx1.items slug title }
      if slug ∉ ctx2.stored_slugs ∧ slug ∉ ctx2.new_items_slugs then
        { ctx2 with new_items := ctx2.new_items ++ [make_record title slug m],
                    new_items_slugs := insert slug ctx2.new_items_slugs,
                    stored_slugs := insert slug ctx2.stored_slugs,
                    new_count := ctx2.new_count + 1 }
      else ctx2

/-- The `for m in machines:` loop of `run_cycle`. -/
def process_machines (title : String) : List FetchedMachine → Ctx → Ctx
  | [], ctx => ctx
  | m :: ms, ctx => process_machines title ms (process_one title m ctx)

/-- One configured search inside `run_cycle`'s loop: a fetch exception is
caught and the loop `continue`s (no statistics line is logged); on a
successful fetch the machines are processed and
`delete_missing_by_search(title, current_slugs_for_search)` runs.  The
returned triple `(title, new_items_count, deleted_count)` is the per-search
statistics line the code logs. -/
def process_search (ctx : Ctx) (title : String)
    (fetched : Except Unit (List FetchedMachine)) :
    Ctx × Option (String × Nat × Nat) :=
  match fetched with
  | .error _ => (ctx, none)
  | .ok machines =>
    let ctx1 : Ctx := { ctx with current := (∅ : Finset String), new_count := 0 }
    let ctx2 := process_machines title machines ctx1
    let res := delete_missing_by_search ctx2.items title ctx2.current
    ({ ctx2 with items := res.1 }, some (title, ctx2.new_count, res.2))

/-- The `for group_id, items in machine_groups.items(): for item_cfg in items:`
iteration, flattened to the list of configured searches with their fetch
outcomes. -/
def run_searches :
    List (String × Except Unit (List FetchedMachine)) → Ctx →
    Ctx × List (String × Nat × Nat)
  | [], ctx => (ctx, [])
  | (title, fetched) :: rest, ctx =>
    let step := process_search ctx title fetched
    let next := run_searches rest step.1
    (next.1, step.2.toList ++ next.2)

/-- The `grouped` dictionary of the notification block: keys in first-insertion
order (Python dict semantics). -/
def insertion_keys (new_items : List Record) : List String :=
  new_items.foldl
    (fun ks r => if r.search_name ∈ ks then ks else ks ++ [r.search_name]) []

/-- `grouped.setdefault(itm["search_name"], []).append(itm)` followed by the
`for search_name, items in grouped.items():` notification calls: each group is
the new items carrying that search name, in list order. -/
def group_by_search (new_items : List Record) : List (String × List Record) :=
  (insertion_keys new_items).map
    (fun s => (s, new_items.filter (fun r => decide (r.search_name = s))))

/-- What one `run_cycle` call produces: the durable state afterwards, the
notifications handed to `TelegramNotifier.send_new_items_notification`
(grouped by search name; empty on a first run or when nothing is new), and the
per-search statistics. -/
structure CycleResult where
  state : CycleState
  notifications : List (String × List Record)
  stats : List (String × Nat × Nat)
deriving DecidableEq, Repr

/-- The locals of `run_cycle` right before the search loop:
`stored_slugs = get_all_slugs()`, empty `fetched_slugs`, `new_items`,
`new_items_slugs`. -/
def init_ctx (st : CycleState) : Ctx :=
  { items := st.items, stored_slugs := get_all_slugs st.items,
    fetched_slugs := ∅, new_items := [], new_items_slugs := ∅,
    current := ∅, new_count := 0 }

/-- `periodic_fetch.run_cycle`: read the first-run flag, iterate the configured
searches, then either mark the first run complete (sending nothing), send the
grouped notifications when `new_items` is non-empty, or send nothing. -/
def run_cycle (st : CycleState)
    (cfgs : List (String × Except Unit (List FetchedMachine))) : CycleResult :=
  let first_run := is_first_run st.first_run_value
  let res := run_searches cfgs (init_ctx st)
  if first_run then
    { state := { items := res.1.items,
                 first_run_value := mark_first_run_complete st.first_run_value },
      notifications := [], stats := res.2 }
  else if res.1.new_items.isEmpty then
    { state := { items := res.1.items, first_run_value := st.first_run_value },
      notifications := [], stats := res.2 }
  else
    { state := { items := res.1.items, first_run_value := st.first_run_value },
      notifications := group_by_search res.1.new_items, stats := res.2 }

/-! ## periodic_fetch.py with store faults

`run_cycle` wraps only the `fetch_via_api_parallel` call in `try/except`; the
Identity Store calls (`upsert_item`, `delete_missing_by_search`) are outside
it, so a store error raises out of `run_cycle` before the notification block
runs (and before `mark_first_run_complete`).  The following variant is the
same code with a fault-injection oracle for the store: `fail_upsert slug`
makes `upsert_item` raise on that slug, `fail_delete title` makes
`delete_missing_by_search` raise for that search.  The returned `Bool` is
whether the cycle raised; on a raise the durable `items` reflect the writes
committed before it (SQLite commits per statement) and nothing is notified.
With both oracles constantly `false` this is `run_cycle`.
-/

/-- The loop body with a fallible `upsert_item`.  The slug has already been
added to the in-memory sets when the upsert raises, but the loop stops there. -/
def process_oneF (fail_upsert : String → Bool) (title : String) (m : FetchedMachine)
    (ctx : Ctx) : Ctx × Bool :=
  if m.link = "" then (ctx, false)
  else
    let slug := extract_slug m.link
    if slug = "" then (ctx, false)
    else
      let ctx1 : Ctx :=
        { ctx with current := insert slug ctx.current,
                   fetched_slugs := insert slug ctx.fetched_slugs }
      if fail_upsert slug then (ctx1, true)
      else
        let ctx2 : Ctx := { ctx1 with items := upsert_item ctx1.items slug title }
        if slug ∉ ctx2.stored_slugs ∧ slug ∉ ctx2.new_items_slugs then
          ({ ctx2 with new_items := ctx2.new_items ++ [make_record title slug m],
                       new_items_slugs := insert slug ctx2.new_items_slugs,
                       stored_slugs := insert slug ctx2.stored_slugs,
                       new_count := ctx2.new_count + 1 }, false)
        else (ctx2, false)

/-- The machine loop with a fallible `upsert_item`. -/
def process_machinesF (fail_upsert : String → Bool) (title : String) :
    List FetchedMachine → Ctx → Ctx × Bool
  | [], ctx => (ctx, false)
  | m :: ms, ctx =>
    let step := process_oneF fail_upsert title m ctx
    if step.2 then (step.1, true)
    else process_machinesF fail_upsert title ms step.1

/-- `process_search` with fallible store writes.  A fetch exception is still
caught (`continue`), but a store error is not: it aborts the search. -/
def process_searchF (fail_upsert fail_delete : String → Bool) (ctx : Ctx)
    (title : String) (fetched : Except Unit (List FetchedMachine)) :
    Ctx × Option (String × Nat × Nat) × Bool :=
  match fetched with
  | .error _ => (ctx, none, false)
  | .ok machines =>
    let ctx1 : Ctx := { ctx with current := (∅ : Finset String), new_count := 0 }
    let pm := process_machinesF fail_upsert title machines ctx1
    if pm.2 then (pm.1, none, true)
    else if fail_delete title then (pm.1, none, true)
    else
      let res := delete_missing_by_search pm.1.items title pm.1.current
      ({ pm.1 with items := res.1 }, some (title, pm.1.new_count, res.2), false)

/-- The search loop with fallible store writes: a store error propagates, so
the remaining configured searches of the cycle are never reached. -/
def run_searchesF (fail_upsert fail_delete : String → Bool) :
    List (String × Except Unit (List FetchedMachine)) → Ctx →
    Ctx × List (String × Nat × Nat) × Bool
  | [], ctx => (ctx, [], false)
  | (title, fetched) :: rest, ctx =>
    let step := process_searchF fail_upsert fail_delete ctx title fetched
    if step.2.2 then (step.1, step.2.1.toList, true)
    else
      let next := run_searchesF fail_upsert fail_delete rest step.1
      (next.1, step.2.1.toList ++ next.2.1, next.2.2)

/-- `run_cycle` with fallible store writes.  When the cycle raises, the
notification block and `mark_first_run_complete` are never reached. -/
def run_cycleF (fail_upsert fail_delete : String → Bool) (st : CycleState)
    (cfgs : List (String × Except Unit (List FetchedMachine))) :
    CycleResult × Bool :=
  let first_run := is_first_run st.first_run_value
  let res := run_searchesF fail_upsert fail_delete cfgs (init_ctx st)
  if res.2.2 then
    ({ state := { items := res.1.items, first_run_value := st.first_run_value },
       notifications := [], stats := res.2.1 }, true)
  else if first_run then
    ({ state := { items := res.1.items,
                  first_run_value := mark_first_run_complete st.first_run_value },
       notifications := [], stats := res.2.1 }, false)
  else if res.1.new_items.isEmpty then
    ({ state := { items := res.1.items, first_run_value := st.first_run_value },
       notifications := [], stats := res.2.1 }, false)
  else
    ({ state := { items := res.1.items, first_run_value := st.first_run_value },
       notifications := group_by_search res.1.new_items, stats := res.2.1 }, false)

/-! ## api_mode_fetch_parallel.py

`_parse_price` returns a Python float: `float('inf')` for an empty or
unparseable price string, the parsed value otherwise.  The parsed values are
decimal literals, which are exact in `ℚ`, so the float is modelled as
`Option ℚ` with `none` standing for every value that is `≤` no finite
`max_price` (`float('inf')`; the model also maps the exotic literals
`inf`/`nan`, which CPython's `float` accepts, to `none` — for both, the
filter's `<= max_price` comparison against a finite bound is false, so the
filter behaviour is unchanged).  Digit-group underscores are not modelled. -/

/-- Python `str.strip()`: drop leading and trailing whitespace. -/
def strip_ws (cs : List Char) : List Char :=
  ((cs.dropWhile Char.isWhitespace).reverse.dropWhile Char.isWhitespace).reverse

/-- `str(price_str).replace('$', '').replace(',', '').strip()`. -/
def clean_price (s : String) : List Char :=
  strip_ws ((s.data.filter (fun c => !(c = '$'))).filter (fun c => !(c = ',')))

/-- Digit run to a natural number. -/
def digits_to_nat (l : List Char) : Nat :=
  l.foldl (fun n c => 10 * n + (c.toNat - 48)) 0

/-- Python `float(s)` on a finite decimal literal: optional sign, digits with
an optional decimal point (at least one digit overall), optional exponent.
`none` when the literal is malformed (Python raises `ValueError`). -/
def parse_decimal (cs : List Char) : Option ℚ :=
  let signed : ℚ × List Char :=
    match cs with
    | '+' :: t => (1, t)
    | '-' :: t => (-1, t)
    | t => (1, t)
  let ipart := signed.2.takeWhile Char.isDigit
  let cs2 := signed.2.dropWhile Char.isDigit
  let fracd : List Char × List Char :=
    match cs2 with
    | '.' :: t => (t.takeWhile Char.isDigit, t.dropWhile Char.isDigit)
    | t => ([], t)
  if ipart.isEmpty ∧ fracd.1.isEmpty then none
  else
    let mant : ℚ :=
      (digits_to_nat ipart : ℚ) + (digits_to_nat fracd.1 : ℚ) / (10 : ℚ) ^ fracd.1.length
    match fracd.2 with
    | [] => some (signed.1 * mant)
    | e :: t =>
      if e = 'e' ∨ e = 'E' then
        let esigned : Bool × List Char :=
          match t with
          | '+' :: t2 => (false, t2)
          | '-' :: t2 => (true, t2)
          | t2 => (false, t2)
        let edig := esigned.2.takeWhile Char.isDigit
        let erest := esigned.2.dropWhile Char.isDigit
        if edig.isEmpty ∨ !erest.isEmpty then none
        else
          let ex := digits_to_nat edig
          some (signed.1 * (if esigned.1 then mant / (10 : ℚ) ^ ex else mant * (10 : ℚ) ^ ex))
      else none

/-- `api_mode_fetch_parallel._parse_price`: empty price → `float('inf')`
(`none` here); otherwise clean the string and parse, `float('inf')` on a
`ValueError`. -/
def parse_price (s : String) : Option ℚ :=
  if s = "" then none
  else parse_decimal (clean_price s)

/-- A machine dictionary as built by `_process_machines`. -/
structure ApiMachine where
  id : String
  search_title : String
  title : String
  price : String
  location : String
  hours : String
  image_url : String
  link : String
deriving DecidableEq, Repr

/-- The predicate of the list comprehension
`[m for m in all_machines if _parse_price(m['price']) <= max_price]`:
`float('inf') <= max_price` is false for every finite `max_price`. -/
def price_filter_keep (max_price : ℚ) (m : ApiMachine) : Bool :=
  match parse_price m.price with
  | some q => decide (q ≤ max_price)
  | none => false

/-- The client-side filtering step of `fetch_via_api_parallel`:
`if max_price:` — the filter runs only when `max_price` is truthy, so it is
skipped when `max_price` is `None` *or* `0`. -/
def apply_max_price_filter (max_price : Option ℚ) (machines : List ApiMachine) :
    List ApiMachine :=
  match max_price with
  | none => machines
  | some v => if v = 0 then machines else machines.filter (price_filter_keep v)

/-! ## Concrete scenarios used by counterexamples and witnesses -/

/-- A fetched machine with the given canonical link and fixed display fields. -/
def sample_machine (link : String) : FetchedMachine :=
  ⟨link, "Title", "Price", "Location", "Hours", "Image"⟩

/-- Spec scenario state: store contains A and B for category Loaders, first
run already complete. -/
def loaders_state : CycleState :=
  ⟨[("A", "Loaders"), ("B", "Loaders")], some "true"⟩

/-- One configured search whose fetch returned zero items (no exception). -/
def loaders_cfg : List (String × Except Unit (List FetchedMachine)) :=
  [("Loaders", Except.ok [])]

/-- Spec scenario state: store contains exactly A, B, C for Excavators. -/
def excavators_state : CycleState :=
  ⟨[("A", "Excavators"), ("B", "Excavators"), ("C", "Excavators")], some "true"⟩

/-- Fetch returns B, C, D for Excavators. -/
def excavators_cfg : List (String × Except Unit (List FetchedMachine)) :=
  [("Excavators", Except.ok
    [sample_machine "https://www.machinefinder.com/ww/en-US/machines/B",
     sample_machine "https://www.machinefinder.com/ww/en-US/machines/C",
     sample_machine "https://www.machinefinder.com/ww/en-US/machines/D"])]

/-- A store that already holds one identifier for category X (so the global
first run is complete) and nothing for category Y. -/
def xy_state : CycleState := ⟨[("x1", "X")], some "true"⟩

/-- Category Y's first-ever fetch, returning one machine. -/
def y_cfg : List (String × Except Unit (List FetchedMachine)) :=
  [("Y", Except.ok [sample_machine "https://www.machinefinder.com/ww/en-US/machines/d1"])]

/-- An empty store with the first run already complete. -/
def empty_state : CycleState := ⟨[], some "true"⟩

/-- Two configured categories, each fetching one machine. -/
def two_cat_cfg : List (String × Except Unit (List FetchedMachine)) :=
  [("Cat1", Except.ok [sample_machine "https://www.machinefinder.com/ww/en-US/machines/a1"]),
   ("Cat2", Except.ok [sample_machine "https://www.machinefinder.com/ww/en-US/machines/b1"])]

/-- Store-fault oracle: `upsert_item` raises on slug `a1`. -/
def fail_on_a1 : String → Bool := fun s => s == "a1"

/-- Store-fault oracle: `upsert_item` raises on slug `b1` (so a cycle over
`two_cat_cfg` processes Cat1 successfully and fails mid-cycle in Cat2). -/
def fail_on_b1 : String → Bool := fun s => s == "b1"

/-- Store-fault oracle: no operation raises. -/
def no_fail : String → Bool := fun _ => false

/-- A third configured category, used to exhibit that categories configured
after a mid-cycle store failure are never processed. -/
def cat3_cfg : List (String × Except Unit (List FetchedMachine)) :=
  [("Cat3", Except.ok [sample_machine "https://www.machinefinder.com/ww/en-US/machines/c1"])]

/-- A machine whose price string is empty. -/
def machine_empty_price : ApiMachine := ⟨"1", "s", "t", "", "", "", "", ""⟩

/-- A machine whose price string does not parse as a number. -/
def machine_text_price : ApiMachine :=
  ⟨"2", "s", "t", "Call for Price", "", "", "", ""⟩

/-! ## Derived notions used in the statements and proofs -/

/-- The set of identifiers run_cycle extracts from a fetch result: machines
with an empty link or an empty extracted slug are skipped. -/
def valid_slugs : List FetchedMachine → Finset String
  | [] => ∅
  | m :: ms =>
    if m.link = "" then valid_slugs ms
    else
      let slug := extract_slug m.link
      if slug = "" then valid_slugs ms
      else insert slug (valid_slugs ms)

/-- The states of the `items` table reachable from the freshly initialised
database through the store's write operations. -/
inductive ReachableStore : Table → Prop where
  | init : ReachableStore []
  | upsert (t : Table) (slug sname : String) :
      ReachableStore t → ReachableStore (upsert_item t slug sname)
  | cleanup_all (t : Table) (slugs : Finset String) :
      ReachableStore t → ReachableStore (delete_missing t slugs)
  | cleanup_by_search (t : Table) (sname : String) (current : Finset String) :
      ReachableStore t → ReachableStore (delete_missing_by_search t sname current).1

/-! ## Basic store lemmas -/

theorem mem_get_all_slugs {t : Table} {σ : String} :
    σ ∈ get_all_slugs t ↔ ∃ r ∈ t, r.1 = σ := by
  simp [get_all_slugs, List.mem_toFinset, List.mem_map]

theorem mem_get_slugs_by_search {t : Table} {sname σ : String} :
    σ ∈ get_slugs_by_search t sname ↔ ∃ r ∈ t, r.2 = sname ∧ r.1 = σ := by
  unfold get_slugs_by_search
  rw [List.mem_toFinset, List.mem_map]
  constructor
  · rintro ⟨r, hr, h1⟩
    rw [List.mem_filter] at hr
    exact ⟨r, hr.1, by simpa using hr.2, h1⟩
  · rintro ⟨r, hr, hs, h1⟩
    exact ⟨r, List.mem_filter.mpr ⟨hr, by simpa using hs⟩, h1⟩

theorem mem_upsert_self (t : Table) (slug sname : String) :
    (slug, sname) ∈ upsert_item t slug sname := by
  unfold upsert_item
  split
  · next h =>
    rw [List.any_eq_true] at h
    obtain ⟨r, hr, he⟩ := h
    simp only [beq_iff_eq] at he
    rw [List.mem_map]
    exact ⟨r, hr, by simp [he]⟩
  · simp

theorem mem_upsert_elim {t : Table} {slug sname : String} {r : String × String}
    (h : r ∈ upsert_item t slug sname) :
    r = (slug, sname) ∨ (r ∈ t ∧ r.1 ≠ slug) := by
  unfold upsert_item at h
  split at h
  · next _ =>
    rw [List.mem_map] at h
    obtain ⟨r0, hr0, he⟩ := h
    by_cases h1 : r0.1 = slug
    · simp [h1] at he; left; exact he.symm
    · simp [h1] at he; right; exact ⟨he ▸ hr0, he ▸ h1⟩
  · next hn =>
    rw [List.mem_append] at h
    rcases h with h | h
    · right
      refine ⟨h, ?_⟩
      intro hc
      apply hn
      rw [List.any_eq_true]
      exact ⟨r, h, by simp [hc]⟩
    · left; simpa using h

theorem mem_upsert_of_ne {t : Table} {slug sname : String} {r : String × String}
    (hr : r ∈ t) (hne : r.1 ≠ slug) : r ∈ upsert_item t slug sname := by
  unfold upsert_item
  split
  · rw [List.mem_map]
    exact ⟨r, hr, by simp [hne]⟩
  · exact List.mem_append_left _ hr

theorem keys_upsert (t : Table) (slug sname : String) :
    get_all_slugs (upsert_item t slug sname) = insert slug (get_all_slugs t) := by
  ext σ
  rw [Finset.mem_insert, mem_get_all_slugs, mem_get_all_slugs]
  constructor
  · rintro ⟨r, hr, h1⟩
    rcases mem_upsert_elim hr with h | ⟨h, _⟩
    · left; rw [← h1, h]
    · right; exact ⟨r, h, h1⟩
  · rintro (h | ⟨r, hr, h1⟩)
    · exact ⟨(slug, sname), mem_upsert_self t slug sname, h.symm⟩
    · by_cases he : r.1 = slug
      · exact ⟨(slug, sname), mem_upsert_self t slug sname, by rw [← h1, he]⟩
      · exact ⟨r, mem_upsert_of_ne hr he, h1⟩

theorem upsert_eq_self {t : Table} {slug sname : String}
    (hall : ∀ r ∈ t, r.1 = slug → r = (slug, sname))
    (hmem : slug ∈ get_all_slugs t) :
    upsert_item t slug sname = t := by
  unfold upsert_item
  rw [mem_get_all_slugs] at hmem
  obtain ⟨r0, hr0, h1⟩ := hmem
  rw [if_pos (by rw [List.any_eq_true]; exact ⟨r0, hr0, by simp [h1]⟩)]
  conv_rhs => rw [← List.map_id t]
  apply List.map_congr_left
  intro r hr
  by_cases he : r.1 = slug
  · rw [if_pos he]
    exact (hall r hr he).symm
  · rw [if_neg he]
    rfl

theorem dmbs_subset {t : Table} {sname : String} {current : Finset String}
    {r : String × String} (h : r ∈ (delete_missing_by_search t sname current).1) :
    r ∈ t := by
  unfold delete_missing_by_search at h
  dsimp only at h
  split at h
  · exact h
  · exact (List.mem_filter.mp h).1

theorem dmbs_mem_of_mem_current {t : Table} {sname : String} {current : Finset String}
    {r : String × String} (hr : r ∈ t) (hc : r.1 ∈ current) :
    r ∈ (delete_missing_by_search t sname current).1 := by
  unfold delete_missing_by_search
  dsimp only
  split
  · exact hr
  · rw [List.mem_filter]
    refine ⟨hr, ?_⟩
    simp only [decide_eq_true_eq, Finset.mem_sdiff]
    intro hcon
    exact hcon.2 hc

theorem dmbs_mem_of_sname_ne {t : Table} {sname : String} {current : Finset String}
    {r : String × String} (hr : r ∈ t)
    (hne : ∀ r2 ∈ t, r2.1 = r.1 → r2.2 ≠ sname) :
    r ∈ (delete_missing_by_search t sname current).1 := by
  unfold delete_missing_by_search
  dsimp only
  split
  · exact hr
  · rw [List.mem_filter]
    refine ⟨hr, ?_⟩
    simp only [decide_eq_true_eq, Finset.mem_sdiff]
    intro hcon
    rw [mem_get_slugs_by_search] at hcon
    obtain ⟨r2, hr2, hs2, h12⟩ := hcon.1
    exact hne r2 hr2 h12 hs2

theorem dmbs_eq_self {t : Table} {sname : String} {current : Finset String}
    (h : ∀ r ∈ t, r.2 = sname → r.1 ∈ current) :
    delete_missing_by_search t sname current = (t, 0) := by
  unfold delete_missing_by_search
  dsimp only
  rw [if_pos ?_]
  rw [Finset.sdiff_eq_empty_iff_subset]
  intro σ hσ
  rw [mem_get_slugs_by_search] at hσ
  obtain ⟨r, hr, hs, h1⟩ := hσ
  exact h1 ▸ h r hr hs

/-! ## Machine-loop lemmas -/

theorem process_one_invalid {title : String} {m : FetchedMachine} {ctx : Ctx}
    (h : m.link = "" ∨ extract_slug m.link = "") :
    process_one title m ctx = ctx := by
  unfold process_one
  rcases h with h | h
  · rw [if_pos h]
  · by_cases h1 : m.link = ""
    · rw [if_pos h1]
    · rw [if_neg h1]
      simp [h]

theorem pm_current (title : String) (ms : List FetchedMachine) (ctx : Ctx) :
    (process_machines title ms ctx).current = ctx.current ∪ valid_slugs ms := by
  induction ms generalizing ctx with
  | nil => simp [process_machines, valid_slugs]
  | cons m ms ih =>
    simp only [process_machines]
    rw [ih]
    by_cases h1 : m.link = ""
    · rw [process_one_invalid (Or.inl h1)]
      simp [valid_slugs, h1]
    · by_cases h2 : extract_slug m.link = ""
      · rw [process_one_invalid (Or.inr h2)]
        simp [valid_slugs, h1, h2]
      · simp only [process_one, if_neg h1, if_neg h2, valid_slugs]
        split_ifs <;>
          simp [Finset.insert_union, Finset.union_insert]

theorem pm_keys (title : String) (ms : List FetchedMachine) (ctx : Ctx) :
    get_all_slugs (process_machines title ms ctx).items =
      get_all_slugs ctx.items ∪ valid_slugs ms := by
  induction ms generalizing ctx with
  | nil => simp [process_machines, valid_slugs]
  | cons m ms ih =>
    simp only [process_machines]
    rw [ih]
    by_cases h1 : m.link = ""
    · rw [process_one_invalid (Or.inl h1)]
      simp [valid_slugs, h1]
    · by_cases h2 : extract_slug m.link = ""
      · rw [process_one_invalid (Or.inr h2)]
        simp [valid_slugs, h1, h2]
      · simp only [process_one, if_neg h1, if_neg h2, valid_slugs]
        split_ifs <;>
          simp [keys_upsert, Finset.insert_union, Finset.union_insert]

theorem pm_rows {title : String} {ms : List FetchedMachine} {ctx : Ctx} :
    ∀ r ∈ (process_machines title ms ctx).items,
      (r.1 ∈ valid_slugs ms ∧ r = (r.1, title)) ∨
      (r.1 ∉ valid_slugs ms ∧ r ∈ ctx.items) := by
  induction ms generalizing ctx with
  | nil =>
    intro r hr
    right
    exact ⟨by simp [valid_slugs], by simpa [process_machines] using hr⟩
  | cons m ms ih =>
    intro r hr
    simp only [process_machines] at hr
    by_cases h1 : m.link = ""
    · rw [process_one_invalid (Or.inl h1)] at hr
      simpa [valid_slugs, h1] using ih r hr
    · by_cases h2 : extract_slug m.link = ""
      · rw [process_one_invalid (Or.inr h2)] at hr
        simpa [valid_slugs, h1, h2] using ih r hr
      · rcases ih r hr with ⟨hv, he⟩ | ⟨hv, hmem⟩
        · left
          refine ⟨?_, he⟩
          simp only [valid_slugs, h1, if_neg h1, if_neg h2]
          simp
          right
          exact hv
        · -- r was untouched by the tail; look at what process_one did
          have hone : r ∈ (process_one title m ctx).items := hmem
          have hitems : (process_one title m ctx).items =
              upsert_item ctx.items (extract_slug m.link) title := by
            simp only [process_one, if_neg h1, if_neg h2]
            split_ifs <;> rfl
          rw [hitems] at hone
          rcases mem_upsert_elim hone with he | ⟨hmem0, hne⟩
          · left
            constructor
            · simp only [valid_slugs, if_neg h1, if_neg h2]
              simp [he]
            · simp [he]
          · right
            constructor
            · simp only [valid_slugs, if_neg h1, if_neg h2]
              simp only [Finset.mem_insert]
              push_neg
              exact ⟨hne, hv⟩
            · exact hmem0


theorem pm_rows_rev {title : String} {ms : List FetchedMachine} {ctx : Ctx} :
    ∀ r ∈ ctx.items, r.1 ∉ valid_slugs ms →
      r ∈ (process_machines title ms ctx).items := by
  induction ms generalizing ctx with
  | nil =>
    intro r hr _
    simpa [process_machines] using hr
  | cons m ms ih =>
    intro r hr hv
    simp only [process_machines]
    by_cases h1 : m.link = ""
    · rw [process_one_invalid (Or.inl h1)]
      refine ih r hr ?_
      simpa [valid_slugs, h1] using hv
    · by_cases h2 : extract_slug m.link = ""
      · rw [process_one_invalid (Or.inr h2)]
        refine ih r hr ?_
        simpa [valid_slugs, h1, h2] using hv
      · simp only [valid_slugs, if_neg h1, if_neg h2, Finset.mem_insert] at hv
        push_neg at hv
        refine ih r ?_ hv.2
        have hitems : (process_one title m ctx).items =
            upsert_item ctx.items (extract_slug m.link) title := by
          simp only [process_one, if_neg h1, if_neg h2]
          split_ifs <;> rfl
        rw [hitems]
        exact mem_upsert_of_ne hr hv.1

theorem pm_mem_items {title : String} {ms : List FetchedMachine} {ctx : Ctx}
    {σ : String} (h : σ ∈ valid_slugs ms) :
    (σ, title) ∈ (process_machines title ms ctx).items := by
  have hk : σ ∈ get_all_slugs (process_machines title ms ctx).items := by
    rw [pm_keys]
    exact Finset.mem_union_right _ h
  rw [mem_get_all_slugs] at hk
  obtain ⟨r, hr, h1⟩ := hk
  rcases pm_rows r hr with ⟨_, he⟩ | ⟨hv, _⟩
  · rw [← h1, ← he]
    exact hr
  · exact absurd (h1 ▸ h) hv

theorem pm_new_inv {title : String} {ms : List FetchedMachine} {ctx : Ctx}
    (h1 : (ctx.new_items.map Record.slug).Nodup)
    (h2 : ∀ r ∈ ctx.new_items, r.slug ∈ ctx.new_items_slugs) :
    ((process_machines title ms ctx).new_items.map Record.slug).Nodup ∧
      ∀ r ∈ (process_machines title ms ctx).new_items,
        r.slug ∈ (process_machines title ms ctx).new_items_slugs := by
  induction ms generalizing ctx with
  | nil => exact ⟨h1, h2⟩
  | cons m ms ih =>
    simp only [process_machines]
    by_cases hv : m.link = "" ∨ extract_slug m.link = ""
    · rw [process_one_invalid hv]
      exact ih h1 h2
    · push_neg at hv
      simp only [process_one, if_neg hv.1, if_neg hv.2]
      split_ifs with hc
      · refine ih ?_ ?_
        · simp only [List.map_append, List.map_cons, List.map_nil, make_record]
          rw [List.nodup_append]
          refine ⟨h1, List.nodup_singleton _, ?_⟩
          intro σ hσ hσ2
          simp only [List.mem_singleton] at hσ2
          rw [List.mem_map] at hσ
          obtain ⟨r, hr, he⟩ := hσ
          exact hc.2 (hσ2 ▸ he ▸ h2 r hr)
        · intro r hr
          simp only [List.mem_append, List.mem_singleton] at hr
          rcases hr with hr | hr
          · exact Finset.mem_insert_of_mem (h2 r hr)
          · simp [hr, make_record]
      · exact ih h1 h2

theorem pm_id {title : String} {ms : List FetchedMachine} {ctx : Ctx}
    (h : ∀ σ ∈ valid_slugs ms,
        σ ∈ get_all_slugs ctx.items ∧
        (∀ r ∈ ctx.items, r.1 = σ → r = (σ, title)) ∧
        σ ∈ ctx.stored_slugs) :
    (process_machines title ms ctx).items = ctx.items ∧
      (process_machines title ms ctx).new_items = ctx.new_items ∧
      (process_machines title ms ctx).new_count = ctx.new_count ∧
      (process_machines title ms ctx).stored_slugs = ctx.stored_slugs ∧
      (process_machines title ms ctx).new_items_slugs = ctx.new_items_slugs := by
  induction ms generalizing ctx with
  | nil => exact ⟨rfl, rfl, rfl, rfl, rfl⟩
  | cons m ms ih =>
    simp only [process_machines]
    by_cases hv : m.link = "" ∨ extract_slug m.link = ""
    · rw [process_one_invalid hv]
      refine ih ?_
      intro σ hσ
      refine h σ ?_
      rcases hv with hv | hv <;> simp [valid_slugs, hv] at hσ ⊢ <;> exact hσ
    · push_neg at hv
      have hs : extract_slug m.link ∈ valid_slugs (m :: ms) := by
        simp [valid_slugs, hv.1, hv.2]
      obtain ⟨hk, hrows, hst⟩ := h _ hs
      have hup : upsert_item ctx.items (extract_slug m.link) title = ctx.items :=
        upsert_eq_self hrows hk
      have hone : process_one title m ctx =
          { ctx with current := insert (extract_slug m.link) ctx.current,
                     fetched_slugs := insert (extract_slug m.link) ctx.fetched_slugs } := by
        simp only [process_one, if_neg hv.1, if_neg hv.2]
        rw [if_neg (by intro hc; exact hc.1 hst)]
        simp [hup]
      rw [hone]
      refine ih ?_
      intro σ hσ
      have := h σ (by simp only [valid_slugs, if_neg hv.1, if_neg hv.2]; exact Finset.mem_insert_of_mem hσ)
      exact this

theorem dmbs_sname_mem_current {t : Table} {sname : String} {current : Finset String}
    {r : String × String} (h : r ∈ (delete_missing_by_search t sname current).1)
    (hs : r.2 = sname) : r.1 ∈ current := by
  have hex : ∀ r2 ∈ t, r2.2 = sname → r2.1 ∈ get_slugs_by_search t sname := by
    intro r2 hr2 hs2
    rw [mem_get_slugs_by_search]
    exact ⟨r2, hr2, hs2, rfl⟩
  unfold delete_missing_by_search at h
  dsimp only at h
  split at h
  · next he =>
    rw [Finset.sdiff_eq_empty_iff_subset] at he
    exact he (hex r h hs)
  · next he =>
    rw [List.mem_filter] at h
    have h2 := h.2
    simp only [decide_eq_true_eq, Finset.mem_sdiff] at h2
    push_neg at h2
    exact h2 (hex r h.1 hs)

/-! ## Primary-key invariant lemmas -/

theorem keys_nodup_upsert {t : Table} (h : (t.map Prod.fst).Nodup)
    (slug sname : String) : ((upsert_item t slug sname).map Prod.fst).Nodup := by
  unfold upsert_item
  split
  · have hk : (t.map (fun r => if r.1 = slug then (slug, sname) else r)).map Prod.fst
        = t.map Prod.fst := by
      rw [List.map_map]
      apply List.map_congr_left
      intro r _
      by_cases hr : r.1 = slug <;> simp [hr]
    rw [hk]
    exact h
  · next hn =>
    rw [List.map_append]
    simp only [List.map_cons, List.map_nil]
    rw [List.nodup_append]
    refine ⟨h, List.nodup_singleton _, ?_⟩
    intro σ hσ hσ2
    simp only [List.mem_singleton] at hσ2
    subst hσ2
    apply hn
    rw [List.any_eq_true]
    rw [List.mem_map] at hσ
    obtain ⟨r, hr, he⟩ := hσ
    exact ⟨r, hr, by simp [he]⟩

theorem keys_nodup_delete_missing {t : Table} (h : (t.map Prod.fst).Nodup)
    (slugs : Finset String) : ((delete_missing t slugs).map Prod.fst).Nodup := by
  unfold delete_missing
  split
  · exact h
  · exact ((List.filter_sublist t).map Prod.fst).nodup h

theorem keys_nodup_dmbs {t : Table} (h : (t.map Prod.fst).Nodup)
    (sname : String) (current : Finset String) :
    (((delete_missing_by_search t sname current).1).map Prod.fst).Nodup := by
  unfold delete_missing_by_search
  dsimp only
  split
  · exact h
  · exact ((List.filter_sublist t).map Prod.fst).nodup h

theorem reachable_keys_nodup {t : Table} (h : ReachableStore t) :
    (t.map Prod.fst).Nodup := by
  induction h with
  | init => exact List.nodup_nil
  | upsert t slug sname _ ih => exact keys_nodup_upsert ih slug sname
  | cleanup_all t slugs _ ih => exact keys_nodup_delete_missing ih slugs
  | cleanup_by_search t sname current _ ih => exact keys_nodup_dmbs ih sname current

theorem nodup_keys_inj {t : Table} (h : (t.map Prod.fst).Nodup)
    {r r2 : String × String} (hr : r ∈ t) (hr2 : r2 ∈ t) (he : r.1 = r2.1) :
    r = r2 :=
  List.inj_on_of_nodup_map h hr hr2 he

/-! ## Cycle-level helper lemmas -/

theorem cycle_state_eq {a b : CycleState} (h1 : a.items = b.items)
    (h2 : a.first_run_value = b.first_run_value) : a = b := by
  cases a
  cases b
  simp_all

theorem run_cycle_items (st : CycleState)
    (cfgs : List (String × Except Unit (List FetchedMachine))) :
    (run_cycle st cfgs).state.items = (run_searches cfgs (init_ctx st)).1.items := by
  unfold run_cycle
  dsimp only
  split
  · rfl
  · split <;> rfl

theorem run_cycle_stats (st : CycleState)
    (cfgs : List (String × Except Unit (List FetchedMachine))) :
    (run_cycle st cfgs).stats = (run_searches cfgs (init_ctx st)).2 := by
  unfold run_cycle
  dsimp only
  split
  · rfl
  · split <;> rfl

theorem run_cycle_first_run_value (st : CycleState)
    (cfgs : List (String × Except Unit (List FetchedMachine))) :
    (run_cycle st cfgs).state.first_run_value = some "true" := by
  unfold run_cycle
  dsimp only
  split
  · rfl
  · next h =>
    have hv : st.first_run_value = some "true" := by
      by_contra hc
      exact h (by simpa [is_first_run] using hc)
    split <;> exact hv

theorem run_searches_singleton (title : String)
    (fetched : Except Unit (List FetchedMachine)) (ctx : Ctx) :
    run_searches [(title, fetched)] ctx =
      ((process_search ctx title fetched).1, (process_search ctx title fetched).2.toList) := by
  simp [run_searches]

theorem ps_run1_props (ctx : Ctx) (title : String) (ms : List FetchedMachine) :
    (∀ σ ∈ valid_slugs ms,
       σ ∈ get_all_slugs (process_search ctx title (Except.ok ms)).1.items ∧
       ∀ r ∈ (process_search ctx title (Except.ok ms)).1.items, r.1 = σ → r = (σ, title)) ∧
    (∀ r ∈ (process_search ctx title (Except.ok ms)).1.items,
       r.2 = title → r.1 ∈ valid_slugs ms) := by
  have hcur : (process_machines title ms
      { ctx with current := (∅ : Finset String), new_count := 0 }).current
      = valid_slugs ms := by
    rw [pm_current]
    exact Finset.empty_union _
  have hitems : (process_search ctx title (Except.ok ms)).1.items =
      (delete_missing_by_search
        (process_machines title ms { ctx with current := (∅ : Finset String), new_count := 0 }).items
        title
        (process_machines title ms { ctx with current := (∅ : Finset String), new_count := 0 }).current).1 :=
    rfl
  constructor
  · intro σ hσ
    constructor
    · rw [hitems]
      rw [mem_get_all_slugs]
      refine ⟨(σ, title), ?_, rfl⟩
      exact dmbs_mem_of_mem_current (pm_mem_items hσ) (by rw [hcur]; exact hσ)
    · intro r hr h1
      rw [hitems] at hr
      rcases pm_rows r (dmbs_subset hr) with ⟨_, he⟩ | ⟨hv, _⟩
      · rw [← h1, ← he]
      · exact absurd (h1 ▸ hσ) hv
  · intro r hr hs
    rw [hitems] at hr
    rw [← hcur]
    exact dmbs_sname_mem_current hr hs

theorem ps_run2_id (ctx : Ctx) (title : String) (ms : List FetchedMachine)
    (h1 : ∀ σ ∈ valid_slugs ms,
        σ ∈ get_all_slugs ctx.items ∧
        (∀ r ∈ ctx.items, r.1 = σ → r = (σ, title)) ∧
        σ ∈ ctx.stored_slugs)
    (h2 : ∀ r ∈ ctx.items, r.2 = title → r.1 ∈ valid_slugs ms) :
    (process_search ctx title (Except.ok ms)).1.items = ctx.items ∧
    (process_search ctx title (Except.ok ms)).2 = some (title, 0, 0) ∧
    (process_search ctx title (Except.ok ms)).1.new_items = ctx.new_items := by
  have hid := @pm_id title ms
    { ctx with current := (∅ : Finset String), new_count := 0 } h1
  have hcur : (process_machines title ms
      { ctx with current := (∅ : Finset String), new_count := 0 }).current
      = valid_slugs ms := by
    rw [pm_current]
    exact Finset.empty_union _
  have hdel : delete_missing_by_search
      (process_machines title ms { ctx with current := (∅ : Finset String), new_count := 0 }).items
      title
      (process_machines title ms { ctx with current := (∅ : Finset String), new_count := 0 }).current
      = ((process_machines title ms
          { ctx with current := (∅ : Finset String), new_count := 0 }).items, 0) := by
    rw [hcur]
    apply dmbs_eq_self
    rw [hid.1]
    exact h2
  refine ⟨?_, ?_, ?_⟩
  · show (delete_missing_by_search _ _ _).1 = ctx.items
    rw [hdel]
    exact hid.1
  · show some (title, _, (delete_missing_by_search _ _ _).2) = some (title, 0, 0)
    rw [hdel]
    rw [hid.2.2.1]
  · show (process_machines title ms _).new_items = ctx.new_items
    exact hid.2.1

/-! ## Persistence of fetched identifiers across a cycle -/

theorem ps_error (ctx : Ctx) (title : String) (e : Unit) :
    process_search ctx title (Except.error e) = (ctx, none) := rfl

theorem ps_ok_items (ctx : Ctx) (title : String) (ms : List FetchedMachine) :
    (process_search ctx title (Except.ok ms)).1.items =
      (delete_missing_by_search
        (process_machines title ms { ctx with current := (∅ : Finset String), new_count := 0 }).items
        title
        (process_machines title ms { ctx with current := (∅ : Finset String), new_count := 0 }).current).1 :=
  rfl

theorem mem_valid_slugs {ms : List FetchedMachine} {m : FetchedMachine}
    (hm : m ∈ ms) (h1 : m.link ≠ "") (h2 : extract_slug m.link ≠ "") :
    extract_slug m.link ∈ valid_slugs ms := by
  induction ms with
  | nil => exact absurd hm (List.not_mem_nil m)
  | cons m0 ms ih =>
    rcases List.mem_cons.mp hm with he | hm2
    · subst he
      simp only [valid_slugs, if_neg h1, if_neg h2]
      exact Finset.mem_insert_self _ _
    · by_cases hva : m0.link = ""
      · simp only [valid_slugs, if_pos hva]
        exact ih hm2
      · by_cases hvb : extract_slug m0.link = ""
        · simp only [valid_slugs, if_neg hva, if_pos hvb]
          exact ih hm2
        · simp only [valid_slugs, if_neg hva, if_neg hvb]
          exact Finset.mem_insert_of_mem (ih hm2)

theorem ps_ok_case_out {ctx : Ctx} {T : String} {ms : List FetchedMachine} {σ : String}
    (hσ : σ ∉ valid_slugs ms)
    (hsafe : ∀ r2 ∈ ctx.items, r2.1 = σ → r2.2 ≠ T) :
    (∀ r ∈ (process_search ctx T (Except.ok ms)).1.items, r.1 = σ → r ∈ ctx.items) ∧
    (∀ r ∈ ctx.items, r.1 = σ → r ∈ (process_search ctx T (Except.ok ms)).1.items) := by
  constructor
  · intro r hr h1
    rw [ps_ok_items] at hr
    rcases pm_rows r (dmbs_subset hr) with ⟨hv, _⟩ | ⟨_, hm⟩
    · exact absurd (h1 ▸ hv) hσ
    · exact hm
  · intro r hr h1
    have hP : r ∈ (process_machines T ms
        { ctx with current := (∅ : Finset String), new_count := 0 }).items :=
      pm_rows_rev r hr (by rw [h1]; exact hσ)
    rw [ps_ok_items]
    apply dmbs_mem_of_sname_ne hP
    intro r2 hr2 h21
    rcases pm_rows r2 hr2 with ⟨hv2, _⟩ | ⟨_, hm2⟩
    · exact absurd ((h21.trans h1) ▸ hv2) hσ
    · exact hsafe r2 hm2 (h21.trans h1)

theorem rs_survive {σ : String} :
    ∀ (rest : List (String × Except Unit (List FetchedMachine))) (ctx : Ctx),
      (rest.map Prod.fst).Nodup →
      σ ∈ get_all_slugs ctx.items →
      (∀ r ∈ ctx.items, r.1 = σ → ∀ f ∈ rest, f.1 = r.2 →
        ∃ ms2, f.2 = Except.ok ms2 ∧ σ ∈ valid_slugs ms2) →
      σ ∈ get_all_slugs (run_searches rest ctx).1.items := by
  intro rest
  induction rest with
  | nil =>
    intro ctx _ hk _
    exact hk
  | cons hd rest ih =>
    intro ctx hnd hk hrows
    obtain ⟨T, fr⟩ := hd
    rw [List.map_cons] at hnd
    have hnd2 := List.nodup_cons.mp hnd
    show σ ∈ get_all_slugs (run_searches rest (process_search ctx T fr).1).1.items
    cases fr with
    | error e =>
      rw [ps_error]
      exact ih ctx hnd2.2 hk
        (fun r hr h1 f hf => hrows r hr h1 f (List.mem_cons_of_mem _ hf))
    | ok ms =>
      by_cases hσ : σ ∈ valid_slugs ms
      · obtain ⟨hk2, hrows2⟩ := (ps_run1_props ctx T ms).1 σ hσ
        refine ih _ hnd2.2 hk2 ?_
        intro r hr h1 f hf hft
        have he := hrows2 r hr h1
        rw [he] at hft
        have hft2 : f.1 = T := hft
        have hmm : f.1 ∈ rest.map Prod.fst := List.mem_map_of_mem Prod.fst hf
        rw [hft2] at hmm
        exact absurd hmm hnd2.1
      · have hsafe : ∀ r2 ∈ ctx.items, r2.1 = σ → r2.2 ≠ T := by
          intro r2 hr2 h21 hT
          obtain ⟨ms2, he2, hin2⟩ :=
            hrows r2 hr2 h21 (T, Except.ok ms) (List.mem_cons_self _ _) hT.symm
          rw [Except.ok.injEq] at he2
          exact hσ (he2 ▸ hin2)
        obtain ⟨hout, hin⟩ := ps_ok_case_out hσ hsafe
        rw [mem_get_all_slugs] at hk
        obtain ⟨r, hr, h1⟩ := hk
        refine ih _ hnd2.2 (mem_get_all_slugs.mpr ⟨r, hin r hr h1, h1⟩) ?_
        intro r2 hr2 h21 f hf hft
        exact hrows r2 (hout r2 hr2 h21) h21 f (List.mem_cons_of_mem _ hf) hft

theorem rs_persist {σ : String} :
    ∀ (cfgs : List (String × Except Unit (List FetchedMachine))) (ctx : Ctx),
      (cfgs.map Prod.fst).Nodup →
      ∀ p ∈ cfgs, ∀ ms, p.2 = Except.ok ms → σ ∈ valid_slugs ms →
        σ ∈ get_all_slugs (run_searches cfgs ctx).1.items := by
  intro cfgs
  induction cfgs with
  | nil =>
    intro ctx _ p hp
    exact absurd hp (List.not_mem_nil p)
  | cons hd rest ih =>
    intro ctx hnd p hp ms hms hσ
    obtain ⟨T, fr⟩ := hd
    rw [List.map_cons] at hnd
    have hnd2 := List.nodup_cons.mp hnd
    show σ ∈ get_all_slugs (run_searches rest (process_search ctx T fr).1).1.items
    rcases List.mem_cons.mp hp with he | hp2
    · subst he
      dsimp only at hms
      subst hms
      obtain ⟨hk2, hrows2⟩ := (ps_run1_props ctx T ms).1 σ hσ
      refine rs_survive rest _ hnd2.2 hk2 ?_
      intro r hr h1 f hf hft
      have he := hrows2 r hr h1
      rw [he] at hft
      have hft2 : f.1 = T := hft
      have hmm : f.1 ∈ rest.map Prod.fst := List.mem_map_of_mem Prod.fst hf
      rw [hft2] at hmm
      exact absurd hmm hnd2.1
    · exact ih _ hnd2.2 p hp2 ms hms hσ

/-! ## No duplicate slugs in the notified items -/

theorem rs_new_inv :
    ∀ (cfgs : List (String × Except Unit (List FetchedMachine))) (ctx : Ctx),
      (ctx.new_items.map Record.slug).Nodup →
      (∀ r ∈ ctx.new_items, r.slug ∈ ctx.new_items_slugs) →
      ((run_searches cfgs ctx).1.new_items.map Record.slug).Nodup ∧
      ∀ r ∈ (run_searches cfgs ctx).1.new_items,
        r.slug ∈ (run_searches cfgs ctx).1.new_items_slugs := by
  intro cfgs
  induction cfgs with
  | nil =>
    intro ctx h1 h2
    exact ⟨h1, h2⟩
  | cons hd rest ih =>
    intro ctx h1 h2
    obtain ⟨T, fr⟩ := hd
    show ((run_searches rest (process_search ctx T fr).1).1.new_items.map Record.slug).Nodup ∧ _
    cases fr with
    | error e =>
      rw [ps_error]
      exact ih ctx h1 h2
    | ok ms =>
      have hpm := @pm_new_inv T ms
        { ctx with current := (∅ : Finset String), new_count := 0 } h1 h2
      exact ih _ hpm.1 hpm.2

theorem insertion_keys_step_nodup :
    ∀ (l : List Record) (ks : List String), ks.Nodup →
      (l.foldl (fun ks r =>
        if r.search_name ∈ ks then ks else ks ++ [r.search_name]) ks).Nodup := by
  intro l
  induction l with
  | nil =>
    intro ks h
    exact h
  | cons r l ih =>
    intro ks h
    simp only [List.foldl_cons]
    by_cases hm : r.search_name ∈ ks
    · rw [if_pos hm]
      exact ih ks h
    · rw [if_neg hm]
      refine ih _ ?_
      rw [List.nodup_append]
      refine ⟨h, List.nodup_singleton _, ?_⟩
      intro a ha ha2
      simp only [List.mem_singleton] at ha2
      subst ha2
      exact hm ha

theorem insertion_keys_nodup (l : List Record) : (insertion_keys l).Nodup :=
  insertion_keys_step_nodup l [] List.nodup_nil

theorem keyed_flatten_nodup {l : List Record} (h : (l.map Record.slug).Nodup) :
    ∀ ks : List String, ks.Nodup →
      (((ks.map (fun s => l.filter (fun r => decide (r.search_name = s)))).flatten).map
        Record.slug).Nodup := by
  intro ks
  induction ks with
  | nil =>
    intro
    simp
  | cons s ks ih =>
    intro hnd
    have hnd2 := List.nodup_cons.mp hnd
    rw [List.map_cons, List.flatten_cons, List.map_append, List.nodup_append]
    refine ⟨((List.filter_sublist l).map Record.slug).nodup h, ih hnd2.2, ?_⟩
    intro σ hσ hσ2
    rw [List.mem_map] at hσ
    obtain ⟨r, hr, he⟩ := hσ
    rw [List.mem_filter] at hr
    rw [List.mem_map] at hσ2
    obtain ⟨r2, hr2, he2⟩ := hσ2
    rw [List.mem_flatten] at hr2
    obtain ⟨chunk, hchunk, hrc⟩ := hr2
    rw [List.mem_map] at hchunk
    obtain ⟨s2, hs2, hce⟩ := hchunk
    rw [← hce, List.mem_filter] at hrc
    have hrr : r = r2 :=
      List.inj_on_of_nodup_map h hr.1 hrc.1 (he.trans he2.symm)
    have hsn : r.search_name = s := by simpa using hr.2
    have hsn2 : r2.search_name = s2 := by simpa using hrc.2
    have hss : s = s2 := by rw [← hsn, hrr, hsn2]
    exact hnd2.1 (hss ▸ hs2)

theorem run_cycle_notifications_cases (st : CycleState)
    (cfgs : List (String × Except Unit (List FetchedMachine))) :
    (run_cycle st cfgs).notifications = [] ∨
    (run_cycle st cfgs).notifications =
      group_by_search (run_searches cfgs (init_ctx st)).1.new_items := by
  unfold run_cycle
  dsimp only
  split
  · exact Or.inl rfl
  · split
    · exact Or.inl rfl
    · exact Or.inr rfl

/-! ## Exact characterisation of delete_missing_by_search -/

theorem dmbs_filter_eq {t : Table} (h : (t.map Prod.fst).Nodup) (sname : String)
    (current : Finset String) :
    (delete_missing_by_search t sname current).1 =
      t.filter (fun r => decide (r.2 = sname → r.1 ∈ current)) := by
  unfold delete_missing_by_search
  dsimp only
  split
  · next he =>
    rw [Finset.sdiff_eq_empty_iff_subset] at he
    symm
    apply List.filter_eq_self.mpr
    intro r hr
    simp only [decide_eq_true_eq]
    intro hs
    exact he (mem_get_slugs_by_search.mpr ⟨r, hr, hs, rfl⟩)
  · apply List.filter_congr
    intro r hr
    simp only [Finset.mem_sdiff, not_and, not_not]
    rw [decide_eq_decide]
    constructor
    · intro hp hs
      exact hp (mem_get_slugs_by_search.mpr ⟨r, hr, hs, rfl⟩)
    · intro hq hmem
      rw [mem_get_slugs_by_search] at hmem
      obtain ⟨r2, hr2, hs2, h12⟩ := hmem
      have he2 : r2 = r := nodup_keys_inj h hr2 hr h12
      exact hq (he2 ▸ hs2)

theorem dmbs_count_eq {t : Table} (h : (t.map Prod.fst).Nodup) (sname : String)
    (current : Finset String) :
    (delete_missing_by_search t sname current).2 =
      (t.filter (fun r => decide (r.2 = sname ∧ r.1 ∉ current))).length := by
  unfold delete_missing_by_search
  dsimp only
  split
  · next he =>
    rw [Finset.sdiff_eq_empty_iff_subset] at he
    symm
    rw [List.length_eq_zero, List.filter_eq_nil_iff]
    intro r hr
    simp only [decide_eq_true_eq, not_and, not_not]
    intro hs
    exact he (mem_get_slugs_by_search.mpr ⟨r, hr, hs, rfl⟩)
  · have hnd : ((t.filter (fun r => decide (r.2 = sname ∧ r.1 ∉ current))).map
        Prod.fst).Nodup :=
      ((List.filter_sublist t).map Prod.fst).nodup h
    have hset : get_slugs_by_search t sname \ current =
        ((t.filter (fun r => decide (r.2 = sname ∧ r.1 ∉ current))).map
          Prod.fst).toFinset := by
      ext σ
      simp only [Finset.mem_sdiff, List.mem_toFinset, List.mem_map, List.mem_filter,
        mem_get_slugs_by_search, decide_eq_true_eq]
      constructor
      · rintro ⟨⟨r, hr, hs, h1⟩, hc⟩
        exact ⟨r, ⟨hr, hs, h1 ▸ hc⟩, h1⟩
      · rintro ⟨r, ⟨hr, hs, hc⟩, h1⟩
        exact ⟨⟨r, hr, hs, h1⟩, h1 ▸ hc⟩
    rw [hset, List.toFinset_card_of_nodup hnd, List.length_map]

/-! ## Claim theorems -/

/-- Claim C1 — evidence of the code bug.  The claim (and the spec's "critical
safety rule") requires that a fetch returning zero items leaves the Identity
Store unchanged, never runs cleanup, and raises exactly one failure alert
after the retry ceiling.  `run_cycle` has no retry and no alert, and on a
zero-item fetch it calls `delete_missing_by_search(title, set())`, which
deletes every identifier stored for the category: starting from store
`{A, B}` for Loaders, the store ends empty, the logged statistics record 2
deletions (cleanup ran), and nothing is handed to the notifier
(`send_alert` has no call site in `periodic_fetch.py`). -/
theorem empty_fetch_wipes_category :
    (run_cycle loaders_state loaders_cfg).state.items = [] ∧
    (run_cycle loaders_state loaders_cfg).stats = [("Loaders", 0, 2)] ∧
    (run_cycle loaders_state loaders_cfg).notifications = [] := by
  decide

/-- Claim C2 counterexample.  Category Y's Identity Store partition is empty
at the start of the cycle — a first run for that category in the claim's
per-category sense — yet because the store already holds an identifier for
category X (so the global `first_run_complete` flag is set), the fetched item
for Y is forwarded to `notify_new`. -/
theorem new_category_notified_on_its_first_cycle :
    get_slugs_by_search xy_state.items "Y" = ∅ ∧
    ((run_cycle xy_state y_cfg).notifications.map
      (fun g => (g.1, g.2.map Record.slug))) = [("Y", ["d1"])] := by
  decide

/-- Claim C2 (amended).  The first run is global, not per-category: on a cycle
whose `first_run_complete` config flag is not `'true'`, every identifier
fetched for any configured category (with distinct category titles) is in the
store at the end of the cycle, and `notify_new` is never called for any
category. -/
theorem global_first_run_persists_without_notifying
    (st : CycleState) (cfgs : List (String × Except Unit (List FetchedMachine)))
    (hfr : is_first_run st.first_run_value = true)
    (hnd : (cfgs.map Prod.fst).Nodup) :
    (run_cycle st cfgs).notifications = [] ∧
    ∀ p ∈ cfgs, ∀ ms, p.2 = Except.ok ms → ∀ m ∈ ms,
      m.link ≠ "" → extract_slug m.link ≠ "" →
      extract_slug m.link ∈ get_all_slugs (run_cycle st cfgs).state.items := by
  constructor
  · unfold run_cycle
    dsimp only
    rw [if_pos hfr]
  · intro p hp ms hms m hm h1 h2
    rw [run_cycle_items]
    exact rs_persist cfgs (init_ctx st) hnd p hp ms hms (mem_valid_slugs hm h1 h2)

/-- Witness for the amended Claim C2 at a concrete first-run input. -/
theorem global_first_run_persists_without_notifying_witness :
    is_first_run (CycleState.mk [] none).first_run_value = true ∧
    (two_cat_cfg.map Prod.fst).Nodup ∧
    ((run_cycle ⟨[], none⟩ two_cat_cfg).notifications = [] ∧
     ∀ p ∈ two_cat_cfg, ∀ ms, p.2 = Except.ok ms → ∀ m ∈ ms,
       m.link ≠ "" → extract_slug m.link ≠ "" →
       extract_slug m.link ∈ get_all_slugs (run_cycle ⟨[], none⟩ two_cat_cfg).state.items) :=
  ⟨by decide, by decide,
   global_first_run_persists_without_notifying ⟨[], none⟩ two_cat_cfg (by decide) (by decide)⟩

/-- Claim C3.  Store `{A, B, C}` for Excavators, non-first-run fetch `{B, C,
D}`: the new set is exactly `{D}` (persisted, and forwarded to `notify_new`
grouped under Excavators), the deleted count is 1 with `A` gone, and the store
afterwards holds exactly `{B, C, D}`. -/
theorem excavators_diff_scenario :
    (run_cycle excavators_state excavators_cfg).state.items =
      [("B", "Excavators"), ("C", "Excavators"), ("D", "Excavators")] ∧
    (run_cycle excavators_state excavators_cfg).stats = [("Excavators", 1, 1)] ∧
    ((run_cycle excavators_state excavators_cfg).notifications.map
      (fun g => (g.1, g.2.map Record.slug))) = [("Excavators", ["D"])] := by
  decide

/-- Claim C4 counterexample.  With two configured categories and an
`upsert_item` that raises while reconciling the first, the cycle raises (the
`true` flag), the per-search statistics are empty — the second category was
never reached — and the second category's fetched identifier `b1` was never
persisted, contradicting "the orchestrator still processes the next
configured category in the same cycle". -/
theorem store_error_skips_remaining_categories :
    run_cycleF fail_on_a1 no_fail empty_state two_cat_cfg =
      ({ state := { items := [], first_run_value := some "true" },
         notifications := [], stats := [] }, true) ∧
    "b1" ∉ get_all_slugs (run_cycleF fail_on_a1 no_fail empty_state two_cat_cfg).1.state.items := by
  decide

/-- As long as no store error has occurred, the search loop over a
concatenation is the loop over the first part followed by the loop over the
second, with the statistics concatenated. -/
theorem run_searchesF_append (fU fD : String → Bool) :
    ∀ (done l2 : List (String × Except Unit (List FetchedMachine))) (ctx : Ctx),
      (run_searchesF fU fD done ctx).2.2 = false →
      run_searchesF fU fD (done ++ l2) ctx =
        ((run_searchesF fU fD l2 (run_searchesF fU fD done ctx).1).1,
         (run_searchesF fU fD done ctx).2.1 ++
           (run_searchesF fU fD l2 (run_searchesF fU fD done ctx).1).2.1,
         (run_searchesF fU fD l2 (run_searchesF fU fD done ctx).1).2.2) := by
  intro done
  induction done with
  | nil =>
    intro l2 ctx _
    simp [run_searchesF]
  | cons hd done ih =>
    intro l2 ctx hok
    obtain ⟨T, fr⟩ := hd
    by_cases hstep : (process_searchF fU fD ctx T fr).2.2 = true
    · simp [run_searchesF, hstep] at hok
    · have hstep' : (process_searchF fU fD ctx T fr).2.2 = false := by
        rwa [Bool.not_eq_true] at hstep
      have hok' : (run_searchesF fU fD done
          (process_searchF fU fD ctx T fr).1).2.2 = false := by
        simpa [run_searchesF, hstep'] using hok
      rw [List.cons_append]
      simp only [run_searchesF, hstep', Bool.false_eq_true, if_false]
      rw [ih l2 _ hok']
      simp [List.append_assoc]

/-- Any configured search list whose head raises a store error produces the
same aborted result whatever comes after the head. -/
theorem run_searchesF_err_head (fU fD : String → Bool) (ctx : Ctx)
    (title : String) (fetched : Except Unit (List FetchedMachine))
    (rest : List (String × Except Unit (List FetchedMachine)))
    (h : (process_searchF fU fD ctx title fetched).2.2 = true) :
    run_searchesF fU fD ((title, fetched) :: rest) ctx =
      ((process_searchF fU fD ctx title fetched).1,
       (process_searchF fU fD ctx title fetched).2.1.toList, true) := by
  simp only [run_searchesF, h, if_true]

/-- Claim C4 (amended).  A store-write error while reconciling any one
configured category — after the categories before it were processed without a
store error — propagates out of `run_cycle` (only fetch errors are caught per
category): the cycle aborts at that category and behaves exactly as if the
categories configured after it did not exist, so none of them is processed in
that cycle. -/
theorem store_error_aborts_cycle
    (fail_upsert fail_delete : String → Bool) (st : CycleState)
    (done : List (String × Except Unit (List FetchedMachine)))
    (title : String) (fetched : Except Unit (List FetchedMachine))
    (rest : List (String × Except Unit (List FetchedMachine)))
    (hok : (run_searchesF fail_upsert fail_delete done (init_ctx st)).2.2 = false)
    (herr : (process_searchF fail_upsert fail_delete
        (run_searchesF fail_upsert fail_delete done (init_ctx st)).1
        title fetched).2.2 = true) :
    run_cycleF fail_upsert fail_delete st (done ++ (title, fetched) :: rest) =
      run_cycleF fail_upsert fail_delete st (done ++ [(title, fetched)]) := by
  have hsr : run_searchesF fail_upsert fail_delete
        (done ++ (title, fetched) :: rest) (init_ctx st) =
      run_searchesF fail_upsert fail_delete
        (done ++ [(title, fetched)]) (init_ctx st) := by
    rw [run_searchesF_append fail_upsert fail_delete done ((title, fetched) :: rest) _ hok,
        run_searchesF_append fail_upsert fail_delete done [(title, fetched)] _ hok,
        run_searchesF_err_head fail_upsert fail_delete _ title fetched rest herr,
        run_searchesF_err_head fail_upsert fail_delete _ title fetched [] herr]
  unfold run_cycleF
  rw [hsr]

/-- Witness for the amended Claim C4 at a concrete mid-cycle failure: Cat1 is
reconciled successfully, the upsert raises while reconciling Cat2, and the
cycle is identical whether or not Cat3 is configured after it. -/
theorem store_error_aborts_cycle_witness :
    (run_searchesF fail_on_b1 no_fail
        [("Cat1", Except.ok [sample_machine "https://www.machinefinder.com/ww/en-US/machines/a1"])]
        (init_ctx empty_state)).2.2 = false ∧
    (process_searchF fail_on_b1 no_fail
        (run_searchesF fail_on_b1 no_fail
          [("Cat1", Except.ok [sample_machine "https://www.machinefinder.com/ww/en-US/machines/a1"])]
          (init_ctx empty_state)).1
        "Cat2"
        (Except.ok [sample_machine "https://www.machinefinder.com/ww/en-US/machines/b1"])).2.2
      = true ∧
    run_cycleF fail_on_b1 no_fail empty_state
        ([("Cat1", Except.ok [sample_machine "https://www.machinefinder.com/ww/en-US/machines/a1"])] ++
          ("Cat2", Except.ok [sample_machine "https://www.machinefinder.com/ww/en-US/machines/b1"]) ::
            cat3_cfg) =
      run_cycleF fail_on_b1 no_fail empty_state
        ([("Cat1", Except.ok [sample_machine "https://www.machinefinder.com/ww/en-US/machines/a1"])] ++
          [("Cat2", Except.ok [sample_machine "https://www.machinefinder.com/ww/en-US/machines/b1"])]) :=
  ⟨by decide, by decide,
   store_error_aborts_cycle fail_on_b1 no_fail empty_state
     [("Cat1", Except.ok [sample_machine "https://www.machinefinder.com/ww/en-US/machines/a1"])]
     "Cat2"
     (Except.ok [sample_machine "https://www.machinefinder.com/ww/en-US/machines/b1"])
     cat3_cfg (by decide) (by decide)⟩

/-- Claim C5.  Running reconciliation twice in succession with the same
non-empty fetch result: the second run reports zero new items and zero
deletions, and the durable state — in particular the category's Identity
Store partition — is identical after both runs. -/
theorem reconcile_twice_idempotent (st : CycleState) (title : String)
    (ms : List FetchedMachine) (_hne : ms ≠ []) :
    (run_cycle (run_cycle st [(title, Except.ok ms)]).state [(title, Except.ok ms)]).state =
      (run_cycle st [(title, Except.ok ms)]).state ∧
    (run_cycle (run_cycle st [(title, Except.ok ms)]).state [(title, Except.ok ms)]).stats =
      [(title, 0, 0)] ∧
    get_slugs_by_search
        (run_cycle (run_cycle st [(title, Except.ok ms)]).state
          [(title, Except.ok ms)]).state.items title =
      get_slugs_by_search (run_cycle st [(title, Except.ok ms)]).state.items title := by
  have h1items : (run_cycle st [(title, Except.ok ms)]).state.items =
      (process_search (init_ctx st) title (Except.ok ms)).1.items := by
    rw [run_cycle_items, run_searches_singleton]
  obtain ⟨hA, hB⟩ := ps_run1_props (init_ctx st) title ms
  rw [← h1items] at hA hB
  have h1 : ∀ σ ∈ valid_slugs ms,
      σ ∈ get_all_slugs (init_ctx (run_cycle st [(title, Except.ok ms)]).state).items ∧
      (∀ r ∈ (init_ctx (run_cycle st [(title, Except.ok ms)]).state).items,
        r.1 = σ → r = (σ, title)) ∧
      σ ∈ (init_ctx (run_cycle st [(title, Except.ok ms)]).state).stored_slugs := by
    intro σ hσ
    obtain ⟨hk, hrw⟩ := hA σ hσ
    exact ⟨hk, hrw, hk⟩
  obtain ⟨hi, hs, _⟩ :=
    ps_run2_id (init_ctx (run_cycle st [(title, Except.ok ms)]).state) title ms h1 hB
  have hstate : (run_cycle (run_cycle st [(title, Except.ok ms)]).state
      [(title, Except.ok ms)]).state = (run_cycle st [(title, Except.ok ms)]).state := by
    apply cycle_state_eq
    · rw [run_cycle_items, run_searches_singleton]
      exact hi
    · rw [run_cycle_first_run_value, run_cycle_first_run_value]
  refine ⟨hstate, ?_, by rw [hstate]⟩
  rw [run_cycle_stats, run_searches_singleton]
  show (process_search _ title (Except.ok ms)).2.toList = _
  rw [hs]
  rfl

/-- Witness for Claim C5 at a concrete input. -/
theorem reconcile_twice_idempotent_witness :
    ([sample_machine "https://www.machinefinder.com/ww/en-US/machines/w1"] ≠
      ([] : List FetchedMachine)) ∧
    ((run_cycle (run_cycle ⟨[], none⟩
          [("Dozers", Except.ok [sample_machine "https://www.machinefinder.com/ww/en-US/machines/w1"])]).state
        [("Dozers", Except.ok [sample_machine "https://www.machinefinder.com/ww/en-US/machines/w1"])]).state =
      (run_cycle ⟨[], none⟩
        [("Dozers", Except.ok [sample_machine "https://www.machinefinder.com/ww/en-US/machines/w1"])]).state ∧
    (run_cycle (run_cycle ⟨[], none⟩
          [("Dozers", Except.ok [sample_machine "https://www.machinefinder.com/ww/en-US/machines/w1"])]).state
        [("Dozers", Except.ok [sample_machine "https://www.machinefinder.com/ww/en-US/machines/w1"])]).stats =
      [("Dozers", 0, 0)] ∧
    get_slugs_by_search
        (run_cycle (run_cycle ⟨[], none⟩
            [("Dozers", Except.ok [sample_machine "https://www.machinefinder.com/ww/en-US/machines/w1"])]).state
          [("Dozers", Except.ok [sample_machine "https://www.machinefinder.com/ww/en-US/machines/w1"])]).state.items
        "Dozers" =
      get_slugs_by_search
        (run_cycle ⟨[], none⟩
          [("Dozers", Except.ok [sample_machine "https://www.machinefinder.com/ww/en-US/machines/w1"])]).state.items
        "Dozers") :=
  ⟨by decide, reconcile_twice_idempotent ⟨[], none⟩ "Dozers" _ (by decide)⟩

/-- Claim C6.  In every reachable Identity Store state the slugs are pairwise
distinct (primary-key semantics: an identifier is associated with exactly one
category), and upserting an identifier that is already present — with any
category — overwrites the association in place: the row count is unchanged
and every row carrying the identifier now carries the new category. -/
theorem store_primary_key (t : Table) (h : ReachableStore t) (slug sname : String)
    (hs : slug ∈ get_all_slugs t) :
    (t.map Prod.fst).Nodup ∧
    (upsert_item t slug sname).length = t.length ∧
    ∀ r ∈ upsert_item t slug sname, r.1 = slug → r.2 = sname := by
  refine ⟨reachable_keys_nodup h, ?_, ?_⟩
  · unfold upsert_item
    rw [mem_get_all_slugs] at hs
    obtain ⟨r0, hr0, h1⟩ := hs
    rw [if_pos (by rw [List.any_eq_true]; exact ⟨r0, hr0, by simp [h1]⟩), List.length_map]
  · intro r hr he
    rcases mem_upsert_elim hr with h2 | ⟨_, hne⟩
    · rw [h2]
    · exact absurd he hne

/-- Witness for Claim C6 at a concrete reachable store. -/
theorem store_primary_key_witness :
    ReachableStore (upsert_item [] "a" "X") ∧
    "a" ∈ get_all_slugs (upsert_item [] "a" "X") ∧
    (((upsert_item [] "a" "X").map Prod.fst).Nodup ∧
     (upsert_item (upsert_item [] "a" "X") "a" "Y").length = (upsert_item [] "a" "X").length ∧
     ∀ r ∈ upsert_item (upsert_item [] "a" "X") "a" "Y", r.1 = "a" → r.2 = "Y") :=
  ⟨ReachableStore.upsert [] "a" "X" ReachableStore.init, by decide,
   store_primary_key _ (ReachableStore.upsert [] "a" "X" ReachableStore.init) "a" "Y" (by decide)⟩

/-- Claim C7.  On a store with distinct slugs, `delete_missing_by_search`
keeps exactly the rows that either belong to another category or are in
`current`: the stale rows of the category are deleted, rows of other
categories are untouched, and the returned count is the number of rows
deleted. -/
theorem delete_missing_by_search_exact (t : Table) (h : (t.map Prod.fst).Nodup)
    (sname : String) (current : Finset String) :
    (delete_missing_by_search t sname current).1 =
      t.filter (fun r => decide (r.2 = sname → r.1 ∈ current)) ∧
    (delete_missing_by_search t sname current).2 =
      (t.filter (fun r => decide (r.2 = sname ∧ r.1 ∉ current))).length :=
  ⟨dmbs_filter_eq h sname current, dmbs_count_eq h sname current⟩

/-- Witness for Claim C7 at a concrete store. -/
theorem delete_missing_by_search_exact_witness :
    ((([("a", "C1"), ("b", "C1"), ("c", "C2")] : Table).map Prod.fst).Nodup) ∧
    ((delete_missing_by_search [("a", "C1"), ("b", "C1"), ("c", "C2")] "C1" {"b"}).1 =
      ([("a", "C1"), ("b", "C1"), ("c", "C2")] : Table).filter
        (fun r => decide (r.2 = "C1" → r.1 ∈ ({"b"} : Finset String))) ∧
     (delete_missing_by_search [("a", "C1"), ("b", "C1"), ("c", "C2")] "C1" {"b"}).2 =
      (([("a", "C1"), ("b", "C1"), ("c", "C2")] : Table).filter
        (fun r => decide (r.2 = "C1" ∧ r.1 ∉ ({"b"} : Finset String)))).length) :=
  ⟨by decide, delete_missing_by_search_exact _ (by decide) "C1" {"b"}⟩

/-- Claim C8.  Whatever the starting state and fetch outcomes, the records
forwarded to the Notifier in one cycle (all groups together) carry pairwise
distinct identifiers: the per-cycle `new_items_slugs` set deduplicates across
categories. -/
theorem notified_slugs_nodup (st : CycleState)
    (cfgs : List (String × Except Unit (List FetchedMachine))) :
    ((((run_cycle st cfgs).notifications).map Prod.snd).flatten.map Record.slug).Nodup := by
  rcases run_cycle_notifications_cases st cfgs with h | h
  · rw [h]
    simp
  · rw [h]
    have hnew := (rs_new_inv cfgs (init_ctx st) (by simp [init_ctx]) (by simp [init_ctx])).1
    unfold group_by_search
    rw [List.map_map]
    exact keyed_flatten_nodup hnew _ (insertion_keys_nodup _)

/-- Claim C9.  The global `delete_missing` returns at once on an empty set —
the whole store is unchanged — while `delete_missing_by_search` has no such
guard: with an empty current set it deletes the category's rows. -/
theorem delete_missing_empty_guard :
    (∀ t : Table, delete_missing t ∅ = t) ∧
    (delete_missing_by_search [("a", "C")] "C" ∅).1 = [] := by
  refine ⟨fun t => ?_, by decide⟩
  unfold delete_missing
  rw [if_pos rfl]

/-- Claim C10 counterexample.  `max_price = 0` is a finite configured value,
but the guard `if max_price:` is falsy on `0`, so the filter is skipped
entirely and the machine with an empty price string — parsed to
`float('inf')` — is *not* excluded from the results. -/
theorem zero_max_price_disables_filter :
    parse_price machine_empty_price.price = none ∧
    apply_max_price_filter (some 0) [machine_empty_price] = [machine_empty_price] := by
  decide

/-- Claim C10 (amended).  A machine whose price string is empty or does not
parse as a number is assigned `float('inf')` by `_parse_price`, and is
excluded from the results whenever a *nonzero* `max_price` is configured
(with `max_price = 0` the truthiness guard skips the filter altogether). -/
theorem unparseable_price_always_excluded (mp : ℚ) (hmp : mp ≠ 0)
    (machines : List ApiMachine) (m : ApiMachine)
    (hbad : m.price = "" ∨ parse_decimal (clean_price m.price) = none) :
    parse_price m.price = none ∧ m ∉ apply_max_price_filter (some mp) machines := by
  have hpp : parse_price m.price = none := by
    unfold parse_price
    rcases hbad with hb | hb
    · rw [if_pos hb]
    · split
      · rfl
      · exact hb
  refine ⟨hpp, ?_⟩
  intro hmem
  unfold apply_max_price_filter at hmem
  dsimp only at hmem
  rw [if_neg hmp] at hmem
  rw [List.mem_filter] at hmem
  have hkeep := hmem.2
  unfold price_filter_keep at hkeep
  rw [hpp] at hkeep
  simp at hkeep

/-- Witness for the amended Claim C10 at a concrete unparseable price. -/
theorem unparseable_price_always_excluded_witness :
    ((100 : ℚ) ≠ 0) ∧
    (machine_text_price.price = "" ∨
      parse_decimal (clean_price machine_text_price.price) = none) ∧
    (parse_price machine_text_price.price = none ∧
     machine_text_price ∉ apply_max_price_filter (some 100) [machine_text_price]) :=
  ⟨by decide, Or.inr (by decide),
   unparseable_price_always_excluded 100 (by decide) [machine_text_price]
     machine_text_price (Or.inr (by decide))⟩

end MachineFinder
